import Mathlib

set_option autoImplicit false
set_option maxRecDepth 8192

/-
Verification of the accounting/lifecycle core of simplevert
(`simplecoin/tasks.py`): the share-ledger windowed aggregation, the payout
engine, the retention/cleanup engine and the threshold monitor, embedded
shallowly as executable Lean functions.  Users and addresses are modelled as
naturals, share ids are the monotone integer primary keys of the `Share`
table, and money amounts are exact integers (the unit is the coin's minor
unit, as in the source).
-/

namespace Simplevert

/-- A row of the `Share` table: `{id, user, shares}` (the `amount` field here
is the `shares` column; `id` is the monotonically increasing primary key). -/
structure ShareE where
  id : ℕ
  user : ℕ
  amount : ℕ
deriving DecidableEq, Repr

/-- A row of the `Block` table, with the fields the tasks read or write:
`last_share_id` is the optional cursor into the share ledger (`lastShareId`),
`merged`, `mature`, `orphan`, `processed` are the lifecycle flags, and
`donated` / `bonus_payed` are written by the payout engine. -/
structure BlockE where
  id : ℕ
  height : ℕ
  bits : ℕ
  totalValue : ℕ
  user : ℕ
  lastShareId : Option ℕ
  merged : Bool
  mature : Bool
  orphan : Bool
  processed : Bool
  donated : ℤ
  bonusPayed : ℤ
deriving DecidableEq, Repr

/-- A committed `Payout` row: `Payout.create(user, amount, block,
user_shares[user], user_perc[user], user_perc_applied.get(user, 0))`. -/
structure PayoutRow where
  user : ℕ
  amount : ℤ
  blockId : ℕ
  shares : ℕ
  perc : ℤ
  percApplied : ℤ
deriving DecidableEq, Repr

/-- The durable state the payout and cleanup tasks read and write: the share
ledger, the block table, the per-user `Payout` rows and the `BonusPayout`
rows (modelled as address/amount pairs). -/
structure PState where
  shares : List ShareE
  blocks : List BlockE
  payouts : List PayoutRow
  bonusPayouts : List (ℕ × ℤ)
deriving DecidableEq, Repr

/-- Sum of the credited share counts of a per-user map (`sum(per_user.values())`). -/
def sumCounts (m : List (ℕ × ℕ)) : ℕ :=
  (m.map Prod.snd).sum

/-- Sum of the values of a per-user integer map (used for final payouts). -/
def sumZ (m : List (ℕ × ℤ)) : ℤ :=
  (m.map Prod.snd).sum

/-- Total share amount available in a ledger slice. -/
def sumAmounts (l : List ShareE) : ℕ :=
  (l.map ShareE.amount).sum

/-- `user_shares.setdefault(user, 0); user_shares[user] += v` on an
association list: add `v` to the entry of `u`, inserting it if absent. -/
def bump : List (ℕ × ℕ) → ℕ → ℕ → List (ℕ × ℕ)
  | [], u, v => [(u, v)]
  | (w, x) :: rest, u, v =>
      if w = u then (w, x + v) :: rest else (w, x) :: bump rest u v

/-- Result of one windowed aggregation walk: the per-user credited counts,
the undistributed part of the budget (`remain` after the loop; the walk was
exhausted iff it is nonzero), and, when the walk stopped inside the ledger,
the id of the last entry touched together with the amount credited to it. -/
structure AggOut where
  counts : List (ℕ × ℕ)
  remain : ℕ
  boundary : Option (ℕ × ℕ)
deriving DecidableEq, Repr

/-- The share-ledger aggregation loop of `payout` (tasks.py lines 433-444):
walk the entries (given newest-to-oldest), crediting each full amount while
`remain > shares`, and otherwise crediting only `remain` to the entry's user
and stopping. -/
def aggregate : List ShareE → ℕ → List (ℕ × ℕ) → AggOut
  | [], remain, acc => ⟨acc, remain, none⟩
  | e :: rest, remain, acc =>
      if e.amount < remain then
        aggregate rest (remain - e.amount) (bump acc e.user e.amount)
      else
        ⟨bump acc e.user remain, 0, some (e.id, remain)⟩

theorem bump_sum (m : List (ℕ × ℕ)) (u v : ℕ) :
    sumCounts (bump m u v) = sumCounts m + v := by
  induction m with
  | nil => simp [bump, sumCounts]
  | cons p rest ih =>
      obtain ⟨w, x⟩ := p
      by_cases h : w = u <;> simp [bump, h, sumCounts] at ih ⊢ <;> omega

theorem bump_ne_nil (m : List (ℕ × ℕ)) (u v : ℕ) : bump m u v ≠ [] := by
  cases m with
  | nil => simp [bump]
  | cons p rest =>
      obtain ⟨w, x⟩ := p
      by_cases h : w = u <;> simp [bump, h]

/-- Conservation: credited counts plus the left-over budget equal the initial
accumulator plus the initial budget. -/
theorem aggregate_sum (entries : List ShareE) :
    ∀ (remain : ℕ) (acc : List (ℕ × ℕ)),
      sumCounts (aggregate entries remain acc).counts
        + (aggregate entries remain acc).remain = sumCounts acc + remain := by
  induction entries with
  | nil => intro remain acc; simp [aggregate]
  | cons e rest ih =>
      intro remain acc
      by_cases h : e.amount < remain
      · simp only [aggregate, if_pos h]
        rw [ih (remain - e.amount) (bump acc e.user e.amount)]
        rw [bump_sum]; omega
      · simp only [aggregate, if_neg h]
        rw [bump_sum]; omega

theorem aggregate_remain_le (entries : List ShareE) :
    ∀ (remain : ℕ) (acc : List (ℕ × ℕ)),
      (aggregate entries remain acc).remain ≤ remain := by
  induction entries with
  | nil => intro remain acc; simp [aggregate]
  | cons e rest ih =>
      intro remain acc
      by_cases h : e.amount < remain
      · simp only [aggregate, if_pos h]
        exact le_trans (ih (remain - e.amount) _) (by omega)
      · simp only [aggregate, if_neg h]; omega

theorem aggregate_acc_ne_nil (entries : List ShareE) :
    ∀ (remain : ℕ) (acc : List (ℕ × ℕ)), acc ≠ [] →
      (aggregate entries remain acc).counts ≠ [] := by
  induction entries with
  | nil => intro remain acc h; simpa [aggregate] using h
  | cons e rest ih =>
      intro remain acc h
      by_cases hlt : e.amount < remain
      · simp only [aggregate, if_pos hlt]
        exact ih _ _ (bump_ne_nil acc e.user e.amount)
      · simp only [aggregate, if_neg hlt]
        exact bump_ne_nil acc e.user remain

theorem aggregate_counts_ne_nil (entries : List ShareE) (remain : ℕ)
    (acc : List (ℕ × ℕ)) (h : entries ≠ []) :
    (aggregate entries remain acc).counts ≠ [] := by
  cases entries with
  | nil => exact absurd rfl h
  | cons e rest =>
      by_cases hlt : e.amount < remain
      · simp only [aggregate, if_pos hlt]
        exact aggregate_acc_ne_nil rest _ _ (bump_ne_nil acc e.user e.amount)
      · simp only [aggregate, if_neg hlt]
        exact bump_ne_nil acc e.user remain

/-- If the walk starts with a positive budget on a nonempty slice of entries
of positive amounts, it consumes part of the budget. -/
theorem aggregate_consumes (entries : List ShareE) (remain : ℕ)
    (acc : List (ℕ × ℕ)) (hne : entries ≠ []) (hpos : 0 < remain)
    (hamt : ∀ x ∈ entries, 1 ≤ x.amount) :
    (aggregate entries remain acc).remain < remain := by
  cases entries with
  | nil => exact absurd rfl hne
  | cons e rest =>
      have he : 1 ≤ e.amount := hamt e (List.mem_cons_self e rest)
      by_cases hlt : e.amount < remain
      · simp only [aggregate, if_pos hlt]
        exact lt_of_le_of_lt (aggregate_remain_le rest _ _) (by omega)
      · simp only [aggregate, if_neg hlt]; omega

/-- Budget within the available total: the walk distributes it exactly and
is not exhausted, and the last entry touched is credited at most its amount. -/
theorem aggregate_le_total (entries : List ShareE) :
    ∀ (remain : ℕ) (acc : List (ℕ × ℕ)), entries ≠ [] →
      remain ≤ sumAmounts entries →
      sumCounts (aggregate entries remain acc).counts = sumCounts acc + remain ∧
      (aggregate entries remain acc).remain = 0 ∧
      ∃ e ∈ entries, ∃ c, (aggregate entries remain acc).boundary = some (e.id, c)
        ∧ c ≤ e.amount := by
  induction entries with
  | nil => intro remain acc h; exact absurd rfl h
  | cons e rest ih =>
      intro remain acc _ hle
      by_cases hlt : e.amount < remain
      · have hrest : rest ≠ [] := by
          intro hr
          rw [hr] at hle
          simp [sumAmounts] at hle
          omega
        have hle' : remain - e.amount ≤ sumAmounts rest := by
          simp only [sumAmounts, List.map_cons, List.sum_cons] at hle
          simp only [sumAmounts]; omega
        obtain ⟨h1, h2, e', he', c, hc, hca⟩ :=
          ih (remain - e.amount) (bump acc e.user e.amount) hrest hle'
        refine ⟨?_, ?_, e', List.mem_cons_of_mem _ he', c, ?_, hca⟩
        · simp only [aggregate, if_pos hlt] at h1 ⊢
          rw [h1, bump_sum]; omega
        · simp only [aggregate, if_pos hlt]; exact h2
        · simp only [aggregate, if_pos hlt]; exact hc
      · refine ⟨?_, ?_, e, List.mem_cons_self e rest, remain, ?_, by omega⟩
        · simp only [aggregate, if_neg hlt]; rw [bump_sum]
        · simp only [aggregate, if_neg hlt]
        · simp only [aggregate, if_neg hlt]

/-- Budget exceeding the available total: the walk credits exactly the total,
leaves a positive remainder (the exhausted case) and touches no boundary. -/
theorem aggregate_gt_total (entries : List ShareE) :
    ∀ (remain : ℕ) (acc : List (ℕ × ℕ)), sumAmounts entries < remain →
      sumCounts (aggregate entries remain acc).counts
          = sumCounts acc + sumAmounts entries ∧
      (aggregate entries remain acc).remain = remain - sumAmounts entries ∧
      (aggregate entries remain acc).boundary = none := by
  induction entries with
  | nil => intro remain acc _; simp [aggregate, sumAmounts]
  | cons e rest ih =>
      intro remain acc hgt
      have hsum : sumAmounts (e :: rest) = e.amount + sumAmounts rest := by
        simp [sumAmounts]
      have hlt : e.amount < remain := by omega
      have hgt' : sumAmounts rest < remain - e.amount := by omega
      obtain ⟨h1, h2, h3⟩ := ih (remain - e.amount) (bump acc e.user e.amount) hgt'
      simp only [aggregate, if_pos hlt]
      refine ⟨?_, ?_, h3⟩
      · rw [h1, bump_sum]; omega
      · omega

/-- C6: for every nonempty ledger slice (walked newest-to-oldest, the caller
supplies the slice below the optional upper cursor) and budget at most the
available total, the per-user counts sum to exactly the budget, the walk is
not exhausted (`remain = 0`), and the last entry touched is credited at most
its amount (only the remaining budget); for a budget above the total the
counts sum to exactly the available total and the walk is exhausted
(`remain > 0`, after which `payout` reduces `total_shares` by it). -/
theorem aggregate_budget_exact (entries : List ShareE) (budget : ℕ) :
    (entries ≠ [] → budget ≤ sumAmounts entries →
      sumCounts (aggregate entries budget []).counts = budget ∧
      (aggregate entries budget []).remain = 0 ∧
      ∃ e ∈ entries, ∃ c, (aggregate entries budget []).boundary = some (e.id, c)
        ∧ c ≤ e.amount) ∧
    (sumAmounts entries < budget →
      sumCounts (aggregate entries budget []).counts = sumAmounts entries ∧
      0 < (aggregate entries budget []).remain) := by
  constructor
  · intro hne hle
    obtain ⟨h1, h2, h3⟩ := aggregate_le_total entries budget [] hne hle
    exact ⟨by simpa [sumCounts] using h1, h2, h3⟩
  · intro hgt
    obtain ⟨h1, h2, _⟩ := aggregate_gt_total entries budget [] hgt
    exact ⟨by simpa [sumCounts] using h1, by omega⟩

/-- Witness for C6 at the spec's own scenario: newest entry id 5 of user 1
with amount 100, oldest entry id 1 of user 2 with amount 50, budget 120. -/
theorem aggregate_budget_exact_witness :
    sumCounts (aggregate [⟨5, 1, 100⟩, ⟨1, 2, 50⟩] 120 []).counts = 120 ∧
    (aggregate [⟨5, 1, 100⟩, ⟨1, 2, 50⟩] 120 []).remain = 0 ∧
    ∃ e ∈ [(⟨5, 1, 100⟩ : ShareE), ⟨1, 2, 50⟩], ∃ c,
      (aggregate [⟨5, 1, 100⟩, ⟨1, 2, 50⟩] 120 []).boundary = some (e.id, c)
        ∧ c ≤ e.amount :=
  (aggregate_budget_exact [⟨5, 1, 100⟩, ⟨1, 2, 50⟩] 120).1 (by decide) (by decide)

/-- Inner `for key in user_payouts` pass of the remainder round-robin
(tasks.py lines 471-477): add one unit to each user in order while budget is
left, returning the updated payouts and the budget still left. -/
def rrPass : List (ℕ × ℕ) → ℕ → List (ℕ × ℕ) × ℕ
  | [], left => ([], left)
  | (u, p) :: rest, left =>
      if left = 0 then ((u, p) :: rest, 0)
      else
        let r := rrPass rest (left - 1)
        ((u, p + 1) :: r.1, r.2)

/-- Outer `while accrued < block.total_value` loop of the remainder
round-robin, with explicit fuel: the Python loop repeats full passes until
the remainder is consumed, and never terminates when the payout map is empty
and a remainder is due; running out of fuel models that divergence.  (The
caller passes `block.total_value` as fuel, which is enough for any nonempty
payout map since every pass consumes at least one unit.) -/
def rrLoop : ℕ → List (ℕ × ℕ) → ℕ → Option (List (ℕ × ℕ))
  | _, pay, 0 => some pay
  | 0, _, _ + 1 => none
  | fuel + 1, pay, left + 1 =>
      let r := rrPass pay (left + 1)
      rrLoop fuel r.1 r.2

theorem rrPass_sum (pay : List (ℕ × ℕ)) :
    ∀ left : ℕ, sumCounts (rrPass pay left).1 + (rrPass pay left).2
      = sumCounts pay + left := by
  induction pay with
  | nil => intro left; simp [rrPass]
  | cons q rest ih =>
      intro left
      obtain ⟨u, p⟩ := q
      by_cases h : left = 0
      · simp [rrPass, h]
      · simp only [rrPass, if_neg h, sumCounts, List.map_cons, List.sum_cons]
        have := ih (left - 1)
        simp only [sumCounts] at this
        omega

theorem rrPass_ne_nil (pay : List (ℕ × ℕ)) (left : ℕ) (h : pay ≠ []) :
    (rrPass pay left).1 ≠ [] := by
  cases pay with
  | nil => exact absurd rfl h
  | cons q rest =>
      obtain ⟨u, p⟩ := q
      by_cases hl : left = 0 <;> simp [rrPass, hl]

theorem rrPass_decreases (pay : List (ℕ × ℕ)) (left : ℕ)
    (hne : pay ≠ []) (hpos : 0 < left) : (rrPass pay left).2 < left := by
  cases pay with
  | nil => exact absurd rfl hne
  | cons q rest =>
      obtain ⟨u, p⟩ := q
      have h : ¬ left = 0 := by omega
      simp only [rrPass, if_neg h]
      have hle : ∀ (l : List (ℕ × ℕ)) (x : ℕ), (rrPass l x).2 ≤ x := by
        intro l
        induction l with
        | nil => intro x; simp [rrPass]
        | cons r t ih =>
            intro x
            obtain ⟨a, b⟩ := r
            by_cases hx : x = 0
            · simp [rrPass, hx]
            · simp only [rrPass, if_neg hx]
              exact le_trans (ih (x - 1)) (by omega)
      exact lt_of_le_of_lt (hle rest (left - 1)) (by omega)

/-- With a nonempty payout map and enough fuel the round-robin terminates and
distributes exactly the remaining budget. -/
theorem rrLoop_total (fuel : ℕ) :
    ∀ (pay : List (ℕ × ℕ)) (left : ℕ), pay ≠ [] → left ≤ fuel →
      ∃ pay2, rrLoop fuel pay left = some pay2 ∧
        sumCounts pay2 = sumCounts pay + left := by
  induction fuel with
  | zero =>
      intro pay left hne hle
      have : left = 0 := by omega
      subst this
      exact ⟨pay, rfl, by omega⟩
  | succ f ih =>
      intro pay left hne hle
      cases left with
      | zero => exact ⟨pay, rfl, by omega⟩
      | succ l =>
          have hdec := rrPass_decreases pay (l + 1) hne (by omega)
          have hne' := rrPass_ne_nil pay (l + 1) hne
          obtain ⟨pay2, h1, h2⟩ :=
            ih (rrPass pay (l + 1)).1 (rrPass pay (l + 1)).2 hne' (by omega)
          refine ⟨pay2, ?_, ?_⟩
          · simp only [rrLoop]; exact h1
          · rw [h2]
            have := rrPass_sum pay (l + 1)
            omega

/-- Sum of natural floor divisions is at most the floor division of the sum. -/
theorem add_div_le (a b c : ℕ) : a / c + b / c ≤ (a + b) / c := by
  rcases Nat.eq_zero_or_pos c with h | h
  · subst h; simp
  · rw [Nat.le_div_iff_mul_le h, Nat.add_mul]
    exact Nat.add_le_add (Nat.div_mul_le_self a c) (Nat.div_mul_le_self b c)

/-- The truncated per-user payouts `share_count * total_value // total_shares`
sum to at most the block value whenever `total_shares` is the sum of the
share counts. -/
theorem trunc_sum_le (l : List (ℕ × ℕ)) (v t : ℕ) (ht : t = sumCounts l) :
    sumCounts (l.map (fun p => (p.1, p.2 * v / t))) ≤ v := by
  have key : ∀ m : List (ℕ × ℕ),
      sumCounts (m.map (fun p => (p.1, p.2 * v / t))) ≤ sumCounts m * v / t := by
    intro m
    induction m with
    | nil => simp [sumCounts]
    | cons q rest ih =>
        simp only [sumCounts, List.map_cons, List.sum_cons, List.map_map] at ih ⊢
        calc q.2 * v / t + (rest.map (Prod.snd ∘ fun p => (p.1, p.2 * v / t))).sum
            ≤ q.2 * v / t + (rest.map Prod.snd).sum * v / t := by omega
          _ ≤ (q.2 * v + (rest.map Prod.snd).sum * v) / t := add_div_le _ _ _
          _ = ((q.2 + (rest.map Prod.snd).sum) * v) / t := by rw [← Nat.add_mul]
  rcases Nat.eq_zero_or_pos t with hz | hp
  · calc sumCounts (l.map (fun p => (p.1, p.2 * v / t))) ≤ sumCounts l * v / t :=
        key l
      _ = 0 := by rw [hz, Nat.div_zero]
      _ ≤ v := Nat.zero_le v
  · calc sumCounts (l.map (fun p => (p.1, p.2 * v / t))) ≤ sumCounts l * v / t :=
        key l
      _ = t * v / t := by rw [← ht]
      _ = v := Nat.mul_div_cancel_left v hp


/-
Binary64 model.  The donation/bonus pass of `payout` computes
`int(ceil((perc / 100.0) * payout))` and `int(floor((perc / 100.0) * payout))`
in IEEE-754 double precision.  A positive double is modelled as a pair
`(m, e)` denoting the exact value `m * 2 ^ (e - 52)` with `m < 2 ^ 53`;
`mkDouble n d` rounds the exact rational `n / d` to the nearest double
(ties to even mantissa), which is CPython's behaviour for the int-to-float
conversion, the float division and the float multiplication involved (all
correctly rounded per IEEE-754; values here are in the normal range, far
from overflow and subnormals).
-/

/-- Floor of the base-2 logarithm, by fueled halving; exact for every
`n < 2 ^ 400`, far beyond every quantity occurring in the payout path. -/
def natLog2Aux : ℕ → ℕ → ℕ
  | 0, _ => 0
  | f + 1, n => if n ≤ 1 then 0 else natLog2Aux f (n / 2) + 1

/-- Floor of the base-2 logarithm of a positive natural. -/
def natLog2 (n : ℕ) : ℕ :=
  natLog2Aux 400 n

/-- Decides `2 ^ e ≤ n / d` for a signed exponent and a positive rational
given as a numerator/denominator pair. -/
def pow2LeRat (e : ℤ) (n d : ℕ) : Bool :=
  if 0 ≤ e then 2 ^ e.toNat * d ≤ n else d ≤ 2 ^ (-e).toNat * n

/-- Round-to-nearest, ties-to-even: the integer nearest to `num / den`. -/
def rne (num den : ℕ) : ℕ :=
  let q := num / den
  let r := num % den
  if 2 * r < den then q
  else if den < 2 * r then q + 1
  else if q % 2 = 0 then q else q + 1

/-- Nearest binary64 value to the rational `n / d` (`d` nonzero), as a
mantissa/exponent pair `(m, e)` with value `m * 2 ^ (e - 52)`. -/
def mkDouble (n d : ℕ) : ℕ × ℤ :=
  if n = 0 then (0, 0)
  else
    let e0 : ℤ := (natLog2 n : ℤ) - (natLog2 d : ℤ)
    let e : ℤ := if pow2LeRat e0 n d then e0 else e0 - 1
    if 0 ≤ 52 - e then (rne (n * 2 ^ (52 - e).toNat) d, e)
    else (rne n (d * 2 ^ (e - 52).toNat), e)

/-- IEEE-754 double multiplication on the mantissa/exponent representation:
round the exact product to the nearest double. -/
def fpMul (a b : ℕ × ℤ) : ℕ × ℤ :=
  let k : ℤ := a.2 + b.2 - 104
  if 0 ≤ k then mkDouble (a.1 * b.1 * 2 ^ k.toNat) 1
  else mkDouble (a.1 * b.1) (2 ^ (-k).toNat)

/-- `int(math.ceil(x))` of a nonnegative double `x = m * 2 ^ (e - 52)`. -/
def ceilD (p : ℕ × ℤ) : ℕ :=
  if 0 ≤ p.2 - 52 then p.1 * 2 ^ (p.2 - 52).toNat
  else (p.1 + 2 ^ (52 - p.2).toNat - 1) / 2 ^ (52 - p.2).toNat

/-- `int(math.floor(x))` of a nonnegative double `x = m * 2 ^ (e - 52)`. -/
def floorD (p : ℕ × ℤ) : ℕ :=
  if 0 ≤ p.2 - 52 then p.1 * 2 ^ (p.2 - 52).toNat
  else p.1 / 2 ^ (52 - p.2).toNat

/-- The donation the source charges a user with percentage `perc > 0` on a
payout (tasks.py line 499): `int(ceil((perc / 100.0) * payout))`, computed in
double precision. -/
def donationFloat (perc pay : ℕ) : ℕ :=
  ceilD (fpMul (mkDouble perc 100) (mkDouble pay 1))

/-- The bonus the source grants a user with percentage `-perc < 0` on a
payout (tasks.py line 509): `int(floor((perc / 100.0) * payout))`, computed
in double precision. -/
def bonusFloat (perc pay : ℕ) : ℕ :=
  floorD (fpMul (mkDouble perc 100) (mkDouble pay 1))

/-- The exact mathematical ceiling of `perc / 100 * payout`. -/
def donationExact (perc pay : ℕ) : ℕ :=
  (perc * pay + 99) / 100

/-- The exact mathematical floor of `perc / 100 * payout`. -/
def bonusExact (perc pay : ℕ) : ℕ :=
  perc * pay / 100

/-- Integer-signature wrapper for the donation used by the payout engine. -/
def donationFloatZ (perc : ℤ) (pay : ℕ) : ℤ :=
  (donationFloat perc.toNat pay : ℤ)

/-- Integer-signature wrapper for the bonus used by the payout engine. -/
def bonusFloatZ (perc : ℤ) (pay : ℕ) : ℤ :=
  (bonusFloat perc.toNat pay : ℤ)

/-- C3 (code bug): the donation and bonus amounts are computed with binary64
floating-point arithmetic, not exact integer arithmetic, and differ from the
exact ceiling and floor already on small inputs: a 7 percent donation on a
payout of 100 is charged 8 instead of ceil(7) = 7 (in double precision
`0.07 * 100` evaluates to `7.000000000000001`), and a 29 percent bonus on a
payout of 100 pays 28 instead of floor(29) = 29 (in double precision
`0.29 * 100` evaluates to `28.999999999999996`). -/
theorem donation_float_not_exact :
    donationFloat 7 100 = 8 ∧ donationExact 7 100 = 7 ∧
    bonusFloat 29 100 = 28 ∧ bonusExact 29 100 = 29 := by
  decide

/-- Configuration read by the payout task: `last_n` (the PPLNS window
multiplier N), `default_perc`, the cached custom `DonationPercent` rows,
`donate_address`, `block_bonus`, and the external `cryptokit.bits_to_shares`
conversion (an external library function, kept abstract as a parameter). -/
structure PayCfg where
  lastN : ℕ
  defaultPerc : ℤ
  customPercs : List (ℕ × ℤ)
  donateAddress : ℕ
  blockBonus : ℤ
  bitsToShares : ℕ → ℕ

/-- `custom_percs.get(user, default_perc)`. -/
def lookupPerc (cfg : PayCfg) (u : ℕ) : ℤ :=
  ((cfg.customPercs.find? (fun q => q.1 == u)).map Prod.snd).getD cfg.defaultPerc

/-- Association-list lookup with a default (`dict.get(user, d)`). -/
def lookupD {α : Type} (m : List (ℕ × α)) (u : ℕ) (d : α) : α :=
  ((m.find? (fun q => q.1 == u)).map Prod.snd).getD d

/-- Resolve a share id in the ledger (the ORM relationship behind
`block.last_share`). -/
def findShare (shares : List ShareE) (i : ℕ) : Option ShareE :=
  shares.find? (fun e => e.id == i)

/-- The ledger in most-recent-first order (`order_by(Share.id.desc())`). -/
def sortDescById (l : List ShareE) : List ShareE :=
  List.insertionSort (fun a b => b.id ≤ a.id) l

/-- The reward window of a block: all entries at or below the cursor, newest
first (`where(Share.id <= start)` with descending order). -/
def payoutWindow (shares : List ShareE) (sid : ℕ) : List ShareE :=
  sortDescById (shares.filter (fun e => decide (e.id ≤ sid)))

/-- `total_shares = bits_to_shares(block.bits) * mult` (tasks.py line 426). -/
def payoutBudget (cfg : PayCfg) (block : BlockE) : ℕ :=
  cfg.bitsToShares block.bits * cfg.lastN

/-- The aggregation walk of `payout` over the block's reward window. -/
def payoutAgg (cfg : PayCfg) (shares : List ShareE) (block : BlockE)
    (sid : ℕ) : AggOut :=
  aggregate (payoutWindow shares sid) (payoutBudget cfg block) []

/-- `total_shares -= remain` (tasks.py line 447): in the exhausted case the
budget is reduced to what was actually found. -/
def payoutT (cfg : PayCfg) (shares : List ShareE) (block : BlockE)
    (sid : ℕ) : ℕ :=
  payoutBudget cfg block - (payoutAgg cfg shares block sid).remain

/-- The truncated per-user payouts
`user_payouts[user] = share_count * block.total_value // total_shares`. -/
def payoutPre (cfg : PayCfg) (shares : List ShareE) (block : BlockE)
    (sid : ℕ) : List (ℕ × ℕ) :=
  (payoutAgg cfg shares block sid).counts.map
    (fun p => (p.1, p.2 * block.totalValue / payoutT cfg shares block sid))

/-- Result of the donation/bonus pass: the final per-user payouts, the
accumulated `donation_total` and `bonus_total`, and the per-user applied
amounts (`user_perc_applied`). -/
structure AdjOut where
  finals : List (ℕ × ℤ)
  donationTotal : ℤ
  bonusTotal : ℤ
  applied : List (ℕ × ℤ)

/-- The donation/bonus pass of `payout` (tasks.py lines 492-516): for each
user, a positive percentage charges `donFn perc payout` as a donation and a
negative one grants `bonFn (-perc) payout` as a bonus; zero is a no-op.  The
adjustment functions are parameters so that the accounting lemmas hold for
any rounding; the source instantiates them with the binary64 versions. -/
def adjustUsers (cfg : PayCfg) (donFn bonFn : ℤ → ℕ → ℤ) :
    List (ℕ × ℕ) → AdjOut
  | [] => ⟨[], 0, 0, []⟩
  | (u, p) :: rest =>
      let a := adjustUsers cfg donFn bonFn rest
      let perc := lookupPerc cfg u
      if 0 < perc then
        ⟨(u, (p : ℤ) - donFn perc p) :: a.finals,
          a.donationTotal + donFn perc p, a.bonusTotal,
          (u, donFn perc p) :: a.applied⟩
      else if perc < 0 then
        ⟨(u, (p : ℤ) + bonFn (-perc) p) :: a.finals,
          a.donationTotal, a.bonusTotal + bonFn (-perc) p,
          (u, -(bonFn (-perc) p)) :: a.applied⟩
      else ⟨(u, (p : ℤ)) :: a.finals, a.donationTotal, a.bonusTotal, a.applied⟩

/-- Sum of the final payouts after the donation/bonus pass: the pre-pass sum
plus the bonus total minus the donation total, for any adjustment functions. -/
theorem adjustUsers_sum (cfg : PayCfg) (donFn bonFn : ℤ → ℕ → ℤ)
    (l : List (ℕ × ℕ)) :
    sumZ (adjustUsers cfg donFn bonFn l).finals
      = (sumCounts l : ℤ) + (adjustUsers cfg donFn bonFn l).bonusTotal
        - (adjustUsers cfg donFn bonFn l).donationTotal := by
  induction l with
  | nil => simp [adjustUsers, sumZ, sumCounts]
  | cons q rest ih =>
      obtain ⟨u, p⟩ := q
      simp only [adjustUsers]
      by_cases h1 : 0 < lookupPerc cfg u
      · simp only [if_pos h1, sumZ, sumCounts, List.map_cons, List.sum_cons]
        simp only [sumZ, sumCounts] at ih
        push_cast at ih ⊢
        omega
      · by_cases h2 : lookupPerc cfg u < 0
        · simp only [if_neg h1, if_pos h2, sumZ, sumCounts, List.map_cons,
            List.sum_cons]
          simp only [sumZ, sumCounts] at ih
          push_cast at ih ⊢
          omega
        · simp only [if_neg h1, if_neg h2, sumZ, sumCounts, List.map_cons,
            List.sum_cons]
          simp only [sumZ, sumCounts] at ih
          push_cast at ih ⊢
          omega

/-- The ways a payout run can abort: a missing (cleared or dangling) share
cursor (`block.last_share.id` raises `AttributeError`), a zero reduced share
total (Python `ZeroDivisionError`), the round-robin spinning forever on an
empty payout map, and a failed pre-commit `assert`. -/
inductive PErr
  | missingCursor
  | zeroDivision
  | nonTermination
  | invariantViolation
deriving DecidableEq, Repr

/-- The full payout computation for one selected block. -/
structure POut where
  userShares : List (ℕ × ℕ)
  totalShares : ℕ
  prePayouts : List (ℕ × ℕ)
  finalPayouts : List (ℕ × ℤ)
  applied : List (ℕ × ℤ)
  donationTotal : ℤ
  bonusTotal : ℤ

/-- The payout computation of tasks.py lines 425-534 for a selected block:
resolve the cursor, aggregate the reward window against the PPLNS budget,
reduce the budget if exhausted, truncate per-user payouts, distribute the
remainder round-robin, run the donation/bonus pass, and check the two
pre-commit assertions. -/
def payoutCompute (cfg : PayCfg) (donFn bonFn : ℤ → ℕ → ℤ)
    (shares : List ShareE) (block : BlockE) : Except PErr POut :=
  match block.lastShareId with
  | none => .error .missingCursor
  | some sid =>
      match findShare shares sid with
      | none => .error .missingCursor
      | some _ =>
          if (payoutAgg cfg shares block sid).counts ≠ []
              ∧ payoutT cfg shares block sid = 0 then
            .error .zeroDivision
          else
            match rrLoop block.totalValue (payoutPre cfg shares block sid)
                (block.totalValue - sumCounts (payoutPre cfg shares block sid))
              with
            | none => .error .nonTermination
            | some pre2 =>
                let adj := adjustUsers cfg donFn bonFn pre2
                if sumCounts pre2 = block.totalValue
                    ∧ sumZ adj.finals = (block.totalValue : ℤ)
                        + adj.bonusTotal - adj.donationTotal then
                  .ok ⟨(payoutAgg cfg shares block sid).counts,
                    payoutT cfg shares block sid, pre2, adj.finals,
                    adj.applied, adj.donationTotal, adj.bonusTotal⟩
                else .error .invariantViolation

/-- First block of minimal height in a list (ties to the earlier row), the
result of `order_by(Block.height).first()`. -/
def pickMinHeight : List BlockE → Option BlockE
  | [] => none
  | b :: rest =>
      match pickMinHeight rest with
      | none => some b
      | some a => if b.height ≤ a.height then some b else some a

/-- Block selection of `payout` (tasks.py lines 417-418):
`Block.query.filter_by(processed=False, merged=False).order_by(Block.height).first()`.
Note: no `mature` or `orphan` condition appears in the query. -/
def selectBlock (blocks : List BlockE) : Option BlockE :=
  pickMinHeight (blocks.filter (fun b => !b.processed && !b.merged))

/-- The `Payout` rows committed for a block from a finished computation. -/
def payoutRows (cfg : PayCfg) (b : BlockE) (r : POut) : List PayoutRow :=
  r.finalPayouts.map (fun p =>
    ⟨p.1, p.2, b.id, lookupD r.userShares p.1 0, lookupPerc cfg p.1,
      lookupD r.applied p.1 0⟩)

/-- One run of the `payout` task (simulate = False).  No block pending
settlement is a successful no-op; any exception rolls the session back,
leaving the state unchanged; on success the `Payout` rows are inserted, the
block is marked processed with its `donated`/`bonus_payed` totals, and the
donation-address and block-finder `BonusPayout` rows are added. -/
def payoutRun (cfg : PayCfg) (s : PState) : PState × Option PErr :=
  match selectBlock s.blocks with
  | none => (s, none)
  | some b =>
      match payoutCompute cfg donationFloatZ bonusFloatZ s.shares b with
      | .error e => (s, some e)
      | .ok r =>
          let blocks2 := s.blocks.map (fun bb =>
            if bb.id = b.id then
              { bb with
                processed := true
                donated := r.donationTotal
                bonusPayed := r.bonusTotal }
            else bb)
          let bonus1 := if 0 < r.donationTotal
            then [(cfg.donateAddress, r.donationTotal)] else []
          let bonus2 := if 0 < cfg.blockBonus
            then [(b.user, cfg.blockBonus)] else []
          ({ shares := s.shares, blocks := blocks2,
             payouts := s.payouts ++ payoutRows cfg b r,
             bonusPayouts := s.bonusPayouts ++ bonus1 ++ bonus2 }, none)

theorem payoutWindow_mem (shares : List ShareE) (sid : ℕ) (x : ShareE) :
    x ∈ payoutWindow shares sid ↔ x ∈ shares ∧ x.id ≤ sid := by
  unfold payoutWindow sortDescById
  rw [List.mem_insertionSort, List.mem_filter]
  simp

theorem findShare_eq_some {shares : List ShareE} {sid : ℕ} {e : ShareE}
    (h : findShare shares sid = some e) : e ∈ shares ∧ e.id = sid := by
  refine ⟨List.mem_of_find?_eq_some h, ?_⟩
  have := List.find?_some h
  simpa using this

theorem payoutWindow_ne_nil {shares : List ShareE} {sid : ℕ} {e : ShareE}
    (h : findShare shares sid = some e) : payoutWindow shares sid ≠ [] := by
  obtain ⟨hmem, hid⟩ := findShare_eq_some h
  exact List.ne_nil_of_mem ((payoutWindow_mem shares sid e).mpr ⟨hmem, by omega⟩)

/-- The reduced share total equals the sum of the credited per-user counts,
in the exhausted case and otherwise. -/
theorem payoutT_eq_sumCounts (cfg : PayCfg) (shares : List ShareE)
    (block : BlockE) (sid : ℕ) :
    payoutT cfg shares block sid = sumCounts (payoutAgg cfg shares block sid).counts := by
  have h := aggregate_sum (payoutWindow shares sid) (payoutBudget cfg block) []
  have hle := aggregate_remain_le (payoutWindow shares sid) (payoutBudget cfg block) []
  have h0 : sumCounts ([] : List (ℕ × ℕ)) = 0 := rfl
  rw [h0] at h
  show payoutBudget cfg block
      - (aggregate (payoutWindow shares sid) (payoutBudget cfg block) []).remain
    = sumCounts (aggregate (payoutWindow shares sid) (payoutBudget cfg block) []).counts
  omega

/-- C1: for every valid input (a resolvable share cursor, positive share
amounts and a positive PPLNS budget) — including the exhausted case, where
the budget exceeds the window's total and `total_shares` is reduced — the
payout computation succeeds, the per-user payouts before the donation/bonus
pass sum to exactly `block.total_value`, and the final per-user payouts sum
to exactly `block.total_value + bonus_total - donation_total`.  A successful
run commits exactly these per-user amounts (see `payoutRun`). -/
theorem payout_sums_exact (cfg : PayCfg) (shares : List ShareE)
    (block : BlockE) (sid : ℕ) (hcur : block.lastShareId = some sid)
    (hfind : findShare shares sid ≠ none)
    (hamt : ∀ e ∈ shares, 1 ≤ e.amount)
    (hbud : 0 < payoutBudget cfg block) :
    ∃ r, payoutCompute cfg donationFloatZ bonusFloatZ shares block = .ok r ∧
      sumCounts r.prePayouts = block.totalValue ∧
      sumZ r.finalPayouts
        = (block.totalValue : ℤ) + r.bonusTotal - r.donationTotal := by
  cases hfs : findShare shares sid with
  | none => exact absurd hfs hfind
  | some e =>
  have hWne : payoutWindow shares sid ≠ [] := payoutWindow_ne_nil hfs
  have hWamt : ∀ x ∈ payoutWindow shares sid, 1 ≤ x.amount := by
    intro x hx
    exact hamt x ((payoutWindow_mem shares sid x).mp hx).1
  have hcons := aggregate_consumes (payoutWindow shares sid)
    (payoutBudget cfg block) [] hWne hbud hWamt
  have hcne : (payoutAgg cfg shares block sid).counts ≠ [] :=
    aggregate_counts_ne_nil _ _ _ hWne
  have hTpos : 0 < payoutT cfg shares block sid := by
    have hcons2 : (payoutAgg cfg shares block sid).remain < payoutBudget cfg block :=
      hcons
    show 0 < payoutBudget cfg block - (payoutAgg cfg shares block sid).remain
    omega
  have hguard : ¬((payoutAgg cfg shares block sid).counts ≠ []
      ∧ payoutT cfg shares block sid = 0) := by
    rintro ⟨-, h0⟩; omega
  have hpre_le : sumCounts (payoutPre cfg shares block sid) ≤ block.totalValue := by
    unfold payoutPre
    exact trunc_sum_le _ _ _ (payoutT_eq_sumCounts cfg shares block sid)
  have hpre_ne : payoutPre cfg shares block sid ≠ [] := by
    unfold payoutPre
    intro h
    exact hcne (List.map_eq_nil_iff.mp h)
  obtain ⟨pre2, hrr, hsum⟩ := rrLoop_total block.totalValue
    (payoutPre cfg shares block sid)
    (block.totalValue - sumCounts (payoutPre cfg shares block sid))
    hpre_ne (Nat.sub_le _ _)
  have hsum2 : sumCounts pre2 = block.totalValue := by omega
  have hfin := adjustUsers_sum cfg donationFloatZ bonusFloatZ pre2
  rw [hsum2] at hfin
  have hchk : sumCounts pre2 = block.totalValue
      ∧ sumZ (adjustUsers cfg donationFloatZ bonusFloatZ pre2).finals
        = (block.totalValue : ℤ)
          + (adjustUsers cfg donationFloatZ bonusFloatZ pre2).bonusTotal
          - (adjustUsers cfg donationFloatZ bonusFloatZ pre2).donationTotal :=
    ⟨hsum2, hfin⟩
  refine ⟨⟨(payoutAgg cfg shares block sid).counts, payoutT cfg shares block sid,
    pre2, (adjustUsers cfg donationFloatZ bonusFloatZ pre2).finals,
    (adjustUsers cfg donationFloatZ bonusFloatZ pre2).applied,
    (adjustUsers cfg donationFloatZ bonusFloatZ pre2).donationTotal,
    (adjustUsers cfg donationFloatZ bonusFloatZ pre2).bonusTotal⟩, ?_, hsum2, hfin⟩
  unfold payoutCompute
  rw [hcur]
  simp only [hfs]
  rw [if_neg hguard]
  simp only [hrr]
  rw [if_pos hchk]

/-- Witness for C1: an exhausted-case run (budget 1000 against a 50-share
window) on a block of value 1001 with two users. -/
theorem payout_sums_exact_witness :
    ∃ r, payoutCompute ⟨2, 0, [], 0, 0, fun _ => 500⟩ donationFloatZ bonusFloatZ
        [⟨2, 7, 30⟩, ⟨1, 8, 20⟩]
        ⟨1, 5, 3, 1001, 9, some 2, false, false, false, false, 0, 0⟩ = .ok r ∧
      sumCounts r.prePayouts = 1001 ∧
      sumZ r.finalPayouts = (1001 : ℤ) + r.bonusTotal - r.donationTotal :=
  payout_sums_exact ⟨2, 0, [], 0, 0, fun _ => 500⟩
    [⟨2, 7, 30⟩, ⟨1, 8, 20⟩]
    ⟨1, 5, 3, 1001, 9, some 2, false, false, false, false, 0, 0⟩ 2
    rfl (by decide) (by decide) (by decide)

/-- C8: the payout computation terminates for every selected block and ledger
state: the unbounded `while accrued < block.total_value` round-robin is never
reached with an empty payout map (the resolved cursor entry is always in the
window), so the modelled fuel never runs out, and whenever the computation
completes the round-robin has distributed the truncation remainder exactly,
leaving the pre-donation payouts summing to `block.total_value`. -/
theorem payout_roundrobin_terminates (cfg : PayCfg) (shares : List ShareE)
    (block : BlockE) :
    payoutCompute cfg donationFloatZ bonusFloatZ shares block
      ≠ .error .nonTermination ∧
    ∀ r, payoutCompute cfg donationFloatZ bonusFloatZ shares block = .ok r →
      sumCounts r.prePayouts = block.totalValue := by
  cases hcur : block.lastShareId with
  | none =>
      have hc : payoutCompute cfg donationFloatZ bonusFloatZ shares block
          = .error .missingCursor := by
        unfold payoutCompute; rw [hcur]
      rw [hc]
      exact ⟨by simp, fun r h => by simp at h⟩
  | some sid =>
  cases hfs : findShare shares sid with
  | none =>
      have hc : payoutCompute cfg donationFloatZ bonusFloatZ shares block
          = .error .missingCursor := by
        unfold payoutCompute; rw [hcur]; simp only [hfs]
      rw [hc]
      exact ⟨by simp, fun r h => by simp at h⟩
  | some e =>
  by_cases hguard : (payoutAgg cfg shares block sid).counts ≠ []
      ∧ payoutT cfg shares block sid = 0
  · have hc : payoutCompute cfg donationFloatZ bonusFloatZ shares block
        = .error .zeroDivision := by
      unfold payoutCompute; rw [hcur]; simp only [hfs]; rw [if_pos hguard]
    rw [hc]
    exact ⟨by simp, fun r h => by simp at h⟩
  · have hWne : payoutWindow shares sid ≠ [] := payoutWindow_ne_nil hfs
    have hcne : (payoutAgg cfg shares block sid).counts ≠ [] :=
      aggregate_counts_ne_nil _ _ _ hWne
    have hpre_ne : payoutPre cfg shares block sid ≠ [] := by
      unfold payoutPre
      intro h
      exact hcne (List.map_eq_nil_iff.mp h)
    obtain ⟨pre2, hrr, hsum⟩ := rrLoop_total block.totalValue
      (payoutPre cfg shares block sid)
      (block.totalValue - sumCounts (payoutPre cfg shares block sid))
      hpre_ne (Nat.sub_le _ _)
    by_cases hchk : sumCounts pre2 = block.totalValue
        ∧ sumZ (adjustUsers cfg donationFloatZ bonusFloatZ pre2).finals
          = (block.totalValue : ℤ)
            + (adjustUsers cfg donationFloatZ bonusFloatZ pre2).bonusTotal
            - (adjustUsers cfg donationFloatZ bonusFloatZ pre2).donationTotal
    · have hc : payoutCompute cfg donationFloatZ bonusFloatZ shares block
          = .ok ⟨(payoutAgg cfg shares block sid).counts,
              payoutT cfg shares block sid, pre2,
              (adjustUsers cfg donationFloatZ bonusFloatZ pre2).finals,
              (adjustUsers cfg donationFloatZ bonusFloatZ pre2).applied,
              (adjustUsers cfg donationFloatZ bonusFloatZ pre2).donationTotal,
              (adjustUsers cfg donationFloatZ bonusFloatZ pre2).bonusTotal⟩ := by
        unfold payoutCompute
        rw [hcur]
        simp only [hfs]
        rw [if_neg hguard]
        simp only [hrr]
        rw [if_pos hchk]
      rw [hc]
      refine ⟨by simp, fun r h => ?_⟩
      injection h with h2
      rw [← h2]
      exact hchk.1
    · have hc : payoutCompute cfg donationFloatZ bonusFloatZ shares block
          = .error .invariantViolation := by
        unfold payoutCompute
        rw [hcur]
        simp only [hfs]
        rw [if_neg hguard]
        simp only [hrr]
        rw [if_neg hchk]
      rw [hc]
      exact ⟨by simp, fun r h => by simp at h⟩

/-- Witness for C8: a one-user ledger where the computation returns with the
pre-donation payouts summing to the block value. -/
theorem payout_roundrobin_terminates_witness :
    payoutCompute ⟨1, 0, [], 0, 0, fun b => b⟩ donationFloatZ bonusFloatZ
        [⟨3, 4, 10⟩] ⟨2, 7, 6, 10, 1, some 3, false, false, false, false, 0, 0⟩
      ≠ .error .nonTermination ∧
    sumCounts (⟨[(4, 6)], 6, [(4, 10)], [(4, (10 : ℤ))], [], 0, 0⟩
      : POut).prePayouts = 10 :=
  ⟨(payout_roundrobin_terminates ⟨1, 0, [], 0, 0, fun b => b⟩ [⟨3, 4, 10⟩]
      ⟨2, 7, 6, 10, 1, some 3, false, false, false, false, 0, 0⟩).1,
   (payout_roundrobin_terminates ⟨1, 0, [], 0, 0, fun b => b⟩ [⟨3, 4, 10⟩]
      ⟨2, 7, 6, 10, 1, some 3, false, false, false, false, 0, 0⟩).2 _ rfl⟩

/-- Inversion: a computation that reaches `.ok` passed both pre-commit
assertions, so its committed sums are exact. -/
theorem payoutCompute_ok_inv (cfg : PayCfg) (donFn bonFn : ℤ → ℕ → ℤ)
    (shares : List ShareE) (block : BlockE) (r : POut)
    (h : payoutCompute cfg donFn bonFn shares block = .ok r) :
    sumCounts r.prePayouts = block.totalValue ∧
    sumZ r.finalPayouts
      = (block.totalValue : ℤ) + r.bonusTotal - r.donationTotal := by
  cases hcur : block.lastShareId with
  | none =>
      unfold payoutCompute at h
      rw [hcur] at h
      simp at h
  | some sid =>
  cases hfs : findShare shares sid with
  | none =>
      unfold payoutCompute at h
      rw [hcur] at h
      simp only [hfs] at h
      simp at h
  | some e =>
  unfold payoutCompute at h
  rw [hcur] at h
  simp only [hfs] at h
  by_cases hguard : (payoutAgg cfg shares block sid).counts ≠ []
      ∧ payoutT cfg shares block sid = 0
  · rw [if_pos hguard] at h
    simp at h
  · rw [if_neg hguard] at h
    cases hrr : rrLoop block.totalValue (payoutPre cfg shares block sid)
        (block.totalValue - sumCounts (payoutPre cfg shares block sid)) with
    | none => simp only [hrr] at h; simp at h
    | some pre2 =>
        simp only [hrr] at h
        by_cases hchk : sumCounts pre2 = block.totalValue
            ∧ sumZ (adjustUsers cfg donFn bonFn pre2).finals
              = (block.totalValue : ℤ)
                + (adjustUsers cfg donFn bonFn pre2).bonusTotal
                - (adjustUsers cfg donFn bonFn pre2).donationTotal
        · rw [if_pos hchk] at h
          injection h with h2
          rw [← h2]
          exact hchk
        · rw [if_neg hchk] at h
          simp at h

/-- C5: a payout run never commits a partial or incorrect payout: whenever
the run ends in an error (including a pre-commit assertion failure) the
session is rolled back and the durable state is exactly the input state —
no `Payout` row is written and the block's `processed`, `donated` and
`bonus_payed` fields are untouched; and whenever the run commits, the
committed computation passed both post-conditions (pre-donation sum equal to
`block.total_value`, final sum equal to
`block.total_value + bonus_total - donation_total`) and the new `Payout`
rows are exactly the computed ones. -/
theorem payout_commit_guarded (cfg : PayCfg) (s : PState) :
    (∀ e, (payoutRun cfg s).2 = some e → (payoutRun cfg s).1 = s) ∧
    (∀ b, selectBlock s.blocks = some b → (payoutRun cfg s).2 = none →
      ∃ r, payoutCompute cfg donationFloatZ bonusFloatZ s.shares b = .ok r ∧
        sumCounts r.prePayouts = b.totalValue ∧
        sumZ r.finalPayouts = (b.totalValue : ℤ) + r.bonusTotal - r.donationTotal ∧
        (payoutRun cfg s).1.payouts = s.payouts ++ payoutRows cfg b r) := by
  cases hsel : selectBlock s.blocks with
  | none =>
      have hrun : payoutRun cfg s = (s, none) := by
        unfold payoutRun; rw [hsel]
      rw [hrun]
      exact ⟨fun e he => by simp at he, fun b hb => by simp at hb⟩
  | some b =>
      cases hcmp : payoutCompute cfg donationFloatZ bonusFloatZ s.shares b with
      | error e =>
          have hrun : payoutRun cfg s = (s, some e) := by
            unfold payoutRun; rw [hsel]; simp only [hcmp]
          rw [hrun]
          refine ⟨fun e2 he2 => rfl, fun b2 hb2 hnone => by simp at hnone⟩
      | ok r =>
          have h2 : (payoutRun cfg s).2 = none := by
            unfold payoutRun; rw [hsel]; simp only [hcmp]
          have h3 : (payoutRun cfg s).1.payouts = s.payouts ++ payoutRows cfg b r := by
            unfold payoutRun; rw [hsel]; simp only [hcmp]
          refine ⟨fun e2 he2 => ?_, fun b2 hb2 hnone => ?_⟩
          · rw [h2] at he2; simp at he2
          · have hb : b = b2 := by injection hb2
            subst hb
            obtain ⟨hs1, hs2⟩ := payoutCompute_ok_inv cfg donationFloatZ
              bonusFloatZ s.shares b r hcmp
            exact ⟨r, hcmp, hs1, hs2, h3⟩

/-- Witness for C5: a run on a state whose only block has a cleared cursor
errors and leaves the state unchanged, and a run on a settleable state
commits exactly the computed rows. -/
theorem payout_commit_guarded_witness :
    ((payoutRun ⟨1, 0, [], 0, 0, fun _ => 1⟩
        ⟨[], [⟨1, 1, 1, 5, 1, none, false, false, false, false, 0, 0⟩], [], []⟩).1
      = ⟨[], [⟨1, 1, 1, 5, 1, none, false, false, false, false, 0, 0⟩], [], []⟩) ∧
    (∃ r, payoutCompute ⟨3, 0, [], 0, 0, fun _ => 1⟩ donationFloatZ bonusFloatZ
        [⟨4, 2, 8⟩] ⟨3, 1, 2, 9, 6, some 4, false, false, false, false, 0, 0⟩
        = .ok r ∧
      sumCounts r.prePayouts = 9 ∧
      sumZ r.finalPayouts = (9 : ℤ) + r.bonusTotal - r.donationTotal ∧
      (payoutRun ⟨3, 0, [], 0, 0, fun _ => 1⟩
          ⟨[⟨4, 2, 8⟩], [⟨3, 1, 2, 9, 6, some 4, false, false, false, false, 0, 0⟩],
            [], []⟩).1.payouts
        = [] ++ payoutRows ⟨3, 0, [], 0, 0, fun _ => 1⟩
            ⟨3, 1, 2, 9, 6, some 4, false, false, false, false, 0, 0⟩ r) :=
  ⟨(payout_commit_guarded ⟨1, 0, [], 0, 0, fun _ => 1⟩
      ⟨[], [⟨1, 1, 1, 5, 1, none, false, false, false, false, 0, 0⟩], [], []⟩).1
      .missingCursor rfl,
   (payout_commit_guarded ⟨3, 0, [], 0, 0, fun _ => 1⟩
      ⟨[⟨4, 2, 8⟩], [⟨3, 1, 2, 9, 6, some 4, false, false, false, false, 0, 0⟩],
        [], []⟩).2
      ⟨3, 1, 2, 9, 6, some 4, false, false, false, false, 0, 0⟩ rfl rfl⟩

/-- C10: the payout run requires the selected block's share cursor: when
`last_share_id` is null (for instance cleared by the cleanup engine),
`block.last_share.id` raises before any distribution is computed, the
session is rolled back with no `Payout` row written and the block unchanged,
and the same block is selected again on the next run. -/
theorem payout_requires_cursor (cfg : PayCfg) (s : PState) (b : BlockE)
    (hsel : selectBlock s.blocks = some b) (hcur : b.lastShareId = none) :
    payoutRun cfg s = (s, some .missingCursor) ∧
    selectBlock (payoutRun cfg s).1.blocks = some b := by
  have hcmp : payoutCompute cfg donationFloatZ bonusFloatZ s.shares b
      = .error .missingCursor := by
    unfold payoutCompute; rw [hcur]
  have hrun : payoutRun cfg s = (s, some .missingCursor) := by
    unfold payoutRun; rw [hsel]; simp only [hcmp]
  exact ⟨hrun, by rw [hrun]; exact hsel⟩

/-- Witness for C10: a state whose oldest unprocessed block has a null
cursor; the run aborts, the state survives unchanged, and the block stays
selected. -/
theorem payout_requires_cursor_witness :
    payoutRun ⟨2, 0, [], 0, 0, fun _ => 3⟩
        ⟨[⟨9, 9, 9⟩], [⟨5, 2, 1, 7, 3, none, false, false, false, false, 0, 0⟩], [], []⟩
      = (⟨[⟨9, 9, 9⟩], [⟨5, 2, 1, 7, 3, none, false, false, false, false, 0, 0⟩], [], []⟩,
          some .missingCursor) ∧
    selectBlock (payoutRun ⟨2, 0, [], 0, 0, fun _ => 3⟩
        ⟨[⟨9, 9, 9⟩], [⟨5, 2, 1, 7, 3, none, false, false, false, false, 0, 0⟩],
          [], []⟩).1.blocks
      = some ⟨5, 2, 1, 7, 3, none, false, false, false, false, 0, 0⟩ :=
  payout_requires_cursor ⟨2, 0, [], 0, 0, fun _ => 3⟩
    ⟨[⟨9, 9, 9⟩], [⟨5, 2, 1, 7, 3, none, false, false, false, false, 0, 0⟩], [], []⟩
    ⟨5, 2, 1, 7, 3, none, false, false, false, false, 0, 0⟩ rfl rfl

theorem pickMinHeight_mem : ∀ (l : List BlockE) (b : BlockE),
    pickMinHeight l = some b → b ∈ l := by
  intro l
  induction l with
  | nil => intro b h; simp [pickMinHeight] at h
  | cons a rest ih =>
      intro b h
      simp only [pickMinHeight] at h
      cases hr : pickMinHeight rest with
      | none =>
          simp only [hr] at h
          injection h with h2
          rw [← h2]
          exact List.mem_cons_self a rest
      | some m =>
          simp only [hr] at h
          by_cases hle : a.height ≤ m.height
          · rw [if_pos hle] at h
            injection h with h2
            rw [← h2]
            exact List.mem_cons_self a rest
          · rw [if_neg hle] at h
            injection h with h2
            rw [← h2]
            exact List.mem_cons_of_mem a (ih m hr)

theorem pickMinHeight_none : ∀ l : List BlockE,
    pickMinHeight l = none → l = [] := by
  intro l
  cases l with
  | nil => intro h; rfl
  | cons a rest =>
      intro h
      simp only [pickMinHeight] at h
      cases hr : pickMinHeight rest with
      | none => simp only [hr] at h; simp at h
      | some m =>
          simp only [hr] at h
          by_cases hle : a.height ≤ m.height
          · rw [if_pos hle] at h; simp at h
          · rw [if_neg hle] at h; simp at h

theorem pickMinHeight_min : ∀ (l : List BlockE) (b : BlockE),
    pickMinHeight l = some b → ∀ x ∈ l, b.height ≤ x.height := by
  intro l
  induction l with
  | nil => intro b h; simp [pickMinHeight] at h
  | cons a rest ih =>
      intro b h x hx
      simp only [pickMinHeight] at h
      cases hr : pickMinHeight rest with
      | none =>
          have hrest : rest = [] := pickMinHeight_none rest hr
          simp only [hr] at h
          injection h with h2
          have hb : b.height = a.height := by rw [← h2]
          subst hrest
          rcases List.mem_cons.mp hx with h3 | h3
          · have hxa : x.height = a.height := by rw [h3]
            omega
          · simp at h3
      | some m =>
          simp only [hr] at h
          by_cases hle : a.height ≤ m.height
          · rw [if_pos hle] at h
            injection h with h2
            have hb : b.height = a.height := by rw [← h2]
            rcases List.mem_cons.mp hx with h3 | h3
            · have hxa : x.height = a.height := by rw [h3]
              omega
            · have hm := ih m hr x h3
              omega
          · rw [if_neg hle] at h
            injection h with h2
            have hb : b.height = m.height := by rw [← h2]
            rcases List.mem_cons.mp hx with h3 | h3
            · have hxa : x.height = a.height := by rw [h3]
              omega
            · have hm := ih m hr x h3
              omega

theorem selectBlock_filter_mem (blocks : List BlockE) (x : BlockE) :
    x ∈ blocks.filter (fun b => !b.processed && !b.merged)
      ↔ x ∈ blocks ∧ x.processed = false ∧ x.merged = false := by
  rw [List.mem_filter]
  simp [Bool.and_eq_true, Bool.not_eq_true']

/-- C2 (counterexample): the selection query of `payout` filters only on
`processed = False, merged = False` and orders by height — it checks neither
`mature` nor `orphan`.  A pending block already marked orphan (and not
mature) is selected and, here, actually settled: the run commits a payout of
the full block value, contradicting both "currently mature" and "an orphan
block never receives a payout". -/
theorem payout_selects_orphan_counterexample :
    selectBlock [⟨1, 4, 2, 50, 3, some 1, false, false, true, false, 0, 0⟩]
      = some ⟨1, 4, 2, 50, 3, some 1, false, false, true, false, 0, 0⟩ ∧
    (⟨1, 4, 2, 50, 3, some 1, false, false, true, false, 0, 0⟩ : BlockE).orphan
      = true ∧
    (⟨1, 4, 2, 50, 3, some 1, false, false, true, false, 0, 0⟩ : BlockE).mature
      = false ∧
    (payoutRun ⟨1, 0, [], 0, 0, fun _ => 2⟩
      ⟨[⟨1, 5, 10⟩], [⟨1, 4, 2, 50, 3, some 1, false, false, true, false, 0, 0⟩],
        [], []⟩).2 = none ∧
    (payoutRun ⟨1, 0, [], 0, 0, fun _ => 2⟩
      ⟨[⟨1, 5, 10⟩], [⟨1, 4, 2, 50, 3, some 1, false, false, true, false, 0, 0⟩],
        [], []⟩).1.payouts = [⟨5, 50, 1, 2, 0, 0⟩] := by
  refine ⟨rfl, rfl, rfl, rfl, rfl⟩

/-- C2 (amended): on every run `payout` selects the single oldest (height
ascending) block with `processed = false` and `merged = false`,
irrespective of its `mature` and `orphan` flags (so an unprocessed orphan or
immature block can be selected and settled); if no such block exists the run
is a successful no-op leaving the state unchanged. -/
theorem payout_selects_oldest_unprocessed (cfg : PayCfg) (s : PState) :
    (∀ b, selectBlock s.blocks = some b →
      b ∈ s.blocks ∧ b.processed = false ∧ b.merged = false ∧
      ∀ b2 ∈ s.blocks, b2.processed = false → b2.merged = false →
        b.height ≤ b2.height) ∧
    (selectBlock s.blocks = none → payoutRun cfg s = (s, none)) := by
  constructor
  · intro b hb
    have hmem := pickMinHeight_mem _ b hb
    obtain ⟨h1, h2, h3⟩ := (selectBlock_filter_mem s.blocks b).mp hmem
    refine ⟨h1, h2, h3, fun b2 hb2 hp2 hm2 => ?_⟩
    exact pickMinHeight_min _ b hb b2
      ((selectBlock_filter_mem s.blocks b2).mpr ⟨hb2, hp2, hm2⟩)
  · intro hnone
    unfold payoutRun
    rw [hnone]

/-- Witness for C2 (amended): a two-block table where the lower, unprocessed,
non-merged block is selected, and a no-op run on a fully processed table. -/
theorem payout_selects_oldest_unprocessed_witness :
    ((⟨2, 3, 1, 40, 1, some 1, false, false, false, false, 0, 0⟩ : BlockE)
        ∈ ([⟨9, 8, 1, 10, 1, some 1, false, true, false, true, 0, 0⟩,
            ⟨2, 3, 1, 40, 1, some 1, false, false, false, false, 0, 0⟩] : List BlockE) ∧
      (⟨2, 3, 1, 40, 1, some 1, false, false, false, false, 0, 0⟩ : BlockE).processed
        = false ∧
      (⟨2, 3, 1, 40, 1, some 1, false, false, false, false, 0, 0⟩ : BlockE).merged
        = false ∧
      ∀ b2 ∈ ([⟨9, 8, 1, 10, 1, some 1, false, true, false, true, 0, 0⟩,
          ⟨2, 3, 1, 40, 1, some 1, false, false, false, false, 0, 0⟩] : List BlockE),
        b2.processed = false → b2.merged = false →
        (⟨2, 3, 1, 40, 1, some 1, false, false, false, false, 0, 0⟩ : BlockE).height
          ≤ b2.height) ∧
    payoutRun ⟨1, 0, [], 0, 0, fun _ => 1⟩
        ⟨[], [⟨7, 1, 1, 10, 1, some 1, false, false, false, true, 0, 0⟩], [], []⟩
      = (⟨[], [⟨7, 1, 1, 10, 1, some 1, false, false, false, true, 0, 0⟩], [], []⟩,
          none) :=
  ⟨(payout_selects_oldest_unprocessed ⟨1, 0, [], 0, 0, fun _ => 1⟩
      ⟨[], [⟨9, 8, 1, 10, 1, some 1, false, true, false, true, 0, 0⟩,
        ⟨2, 3, 1, 40, 1, some 1, false, false, false, false, 0, 0⟩], [], []⟩).1
      ⟨2, 3, 1, 40, 1, some 1, false, false, false, false, 0, 0⟩ rfl,
   (payout_selects_oldest_unprocessed ⟨1, 0, [], 0, 0, fun _ => 1⟩
      ⟨[], [⟨7, 1, 1, 10, 1, some 1, false, false, false, true, 0, 0⟩], [], []⟩).2
      rfl⟩

/-- The retention budget of `cleanup` (tasks.py lines 349-362).  The task
reads `cache.get('difficulty_avg')` into `diff` but the next line
unconditionally overrides it with `diff = 1100.0` (and the `if diff is None`
guard below it is therefore dead), so the cached average — the `diffAvg`
parameter here — is ignored: the budget is always
`int(round(1100.0 * 2^16 * ((cleanup_n + last_n) + unproc_blocks * last_n)))`.
The double-precision product is exact (an integer below `2^53` for every
realistic operand), so the rounding is the identity. -/
def cleanupTotalShares (diffAvg : Option ℕ) (unprocBlocks lastN cleanupN : ℕ) : ℕ :=
  1100 * 2 ^ 16 * ((cleanupN + lastN) + unprocBlocks * lastN)

/-- The stale-id walk of `cleanup` (tasks.py lines 372-379): accumulate
amounts newest-to-oldest and return the id of the first entry at which the
running total reaches the budget; `0` (`stale_id = 0`, falsy) when the
ledger is smaller than the budget. -/
def cleanStaleGo : List ShareE → ℕ → ℕ → ℕ
  | [], _, _ => 0
  | e :: rest, counted, budget =>
      if budget ≤ counted + e.amount then e.id
      else cleanStaleGo rest (counted + e.amount) budget

/-- Stale boundary id for a newest-first ledger and a budget. -/
def cleanStaleId (entries : List ShareE) (budget : ℕ) : ℕ :=
  cleanStaleGo entries 0 budget

/-- `Block.last_share_id <= stale_id` in SQL: null cursors match nothing. -/
def cursorLE (b : BlockE) (x : ℕ) : Bool :=
  match b.lastShareId with
  | none => false
  | some i => i ≤ x

/-- The stale boundary computed by one cleanup run on a state: unprocessed
non-merged blocks are counted from the block table, the budget from
`cleanupTotalShares`, and the walk runs over the ledger newest-first. -/
def cleanupStale (diffAvg : Option ℕ) (lastN cleanupN : ℕ) (s : PState) : ℕ :=
  cleanStaleId (sortDescById s.shares)
    (cleanupTotalShares diffAvg
      (s.blocks.filter (fun b => !b.processed && !b.merged)).length lastN cleanupN)

/-- One run of the `cleanup` task (simulate = False), tasks.py lines 381-398:
a zero stale id is a no-op; otherwise `last_share_id` is cleared on every
block whose cursor is at most the stale id, and then every share with
`id < stale_id` is deleted, in one transaction. -/
def cleanupRun (diffAvg : Option ℕ) (lastN cleanupN : ℕ) (s : PState) : PState :=
  let stale := cleanupStale diffAvg lastN cleanupN s
  if stale = 0 then s
  else
    { s with
      blocks := s.blocks.map (fun b =>
        if cursorLE b stale then { b with lastShareId := none } else b)
      shares := s.shares.filter (fun e => !decide (e.id < stale)) }

/-- Every non-null block cursor references an existing ledger entry. -/
def validCursors (s : PState) : Bool :=
  s.blocks.all (fun b =>
    match b.lastShareId with
    | none => true
    | some i => s.shares.any (fun e => e.id == i))

/-- C7 (code bug): the cleanup retention budget ignores the cached rolling
average difficulty: `diff = cache.get('difficulty_avg')` is immediately
overwritten by the debug leftover `diff = 1100.0` (tasks.py line 350), so
with a cached average of 2200, one unprocessed block, `last_n = 2` and
`cleanup_n = 4` the budget is `1100 * 2^16 * 8` instead of the claimed
`average_difficulty * 2^16 * (unprocessed_n + safety_margin_n)
= 2200 * 2^16 * 8`. -/
theorem cleanup_budget_ignores_cached_difficulty :
    cleanupTotalShares (some 2200) 1 2 4 = 1100 * 2 ^ 16 * 8 ∧
    cleanupTotalShares (some 2200) 1 2 4 ≠ 2200 * 2 ^ 16 * 8 := by
  decide

/-- C4 (counterexample): a cleanup run can delete a ShareEntry that is
referenced (as `last_share_id`) by an unprocessed block — exactly the data a
pending payout still needs.  Here the ledger holds three entries of
500000000 shares, the only (unprocessed) block's cursor points at the oldest
entry id 1, and the retention budget (counted from the newest entry) is
reached at id 3, so entries 1 and 2 are deleted even though entry 1 was
referenced, after the block's cursor is nulled. -/
theorem cleanup_deletes_referenced_share :
    (∃ b ∈ (⟨[⟨3, 1, 500000000⟩, ⟨2, 1, 500000000⟩, ⟨1, 2, 500000000⟩],
        [⟨1, 6, 2, 50, 3, some 1, false, true, false, false, 0, 0⟩], [], []⟩
        : PState).blocks, b.processed = false ∧ b.lastShareId = some 1) ∧
    (∃ e ∈ (⟨[⟨3, 1, 500000000⟩, ⟨2, 1, 500000000⟩, ⟨1, 2, 500000000⟩],
        [⟨1, 6, 2, 50, 3, some 1, false, true, false, false, 0, 0⟩], [], []⟩
        : PState).shares, e.id = 1) ∧
    (∀ e ∈ (cleanupRun (some 9999) 1 4
        ⟨[⟨3, 1, 500000000⟩, ⟨2, 1, 500000000⟩, ⟨1, 2, 500000000⟩],
          [⟨1, 6, 2, 50, 3, some 1, false, true, false, false, 0, 0⟩], [], []⟩).shares,
      e.id ≠ 1) := by
  decide

/-- C4 (amended): a cleanup run deletes exactly the ledger entries with
`id < boundary_id` (no-op when no boundary is found), and before deleting it
nulls `last_share_id` on every block whose cursor is at most the boundary —
including unprocessed blocks, so entries still needed by a pending payout
CAN be pruned (see the counterexample) — and consequently, if every non-null
cursor referenced an existing entry before the run, the same holds after it:
no dangling reference survives a cleanup. -/
theorem cleanup_no_dangling (diffAvg : Option ℕ) (lastN cleanupN : ℕ)
    (s : PState) (hv : validCursors s = true) :
    validCursors (cleanupRun diffAvg lastN cleanupN s) = true ∧
    ∀ e ∈ s.shares,
      (e ∈ (cleanupRun diffAvg lastN cleanupN s).shares ↔
        (cleanupStale diffAvg lastN cleanupN s = 0 ∨
          ¬ e.id < cleanupStale diffAvg lastN cleanupN s)) := by
  by_cases hst : cleanupStale diffAvg lastN cleanupN s = 0
  · have hrun : cleanupRun diffAvg lastN cleanupN s = s := by
      unfold cleanupRun
      rw [if_pos hst]
    rw [hrun]
    exact ⟨hv, fun e he => ⟨fun _ => Or.inl hst, fun _ => he⟩⟩
  · have hrun : cleanupRun diffAvg lastN cleanupN s =
        { s with
          blocks := s.blocks.map (fun b =>
            if cursorLE b (cleanupStale diffAvg lastN cleanupN s) then
              { b with lastShareId := none }
            else b)
          shares := s.shares.filter (fun e =>
            !decide (e.id < cleanupStale diffAvg lastN cleanupN s)) } := by
      unfold cleanupRun
      rw [if_neg hst]
    rw [hrun]
    constructor
    · rw [validCursors, List.all_eq_true]
      intro b2 hb2
      obtain ⟨b, hb, hfb⟩ := List.mem_map.mp hb2
      by_cases hc : cursorLE b (cleanupStale diffAvg lastN cleanupN s) = true
      · rw [if_pos hc] at hfb
        rw [← hfb]
      · rw [if_neg hc] at hfb
        rw [← hfb]
        cases hcur : b.lastShareId with
        | none => rfl
        | some i =>
            have hvb := (List.all_eq_true.mp hv) b hb
            rw [hcur] at hvb
            obtain ⟨e, he, hei⟩ := List.any_eq_true.mp hvb
            have hgt : ¬ i ≤ cleanupStale diffAvg lastN cleanupN s := by
              intro hle
              apply hc
              unfold cursorLE
              rw [hcur]
              simpa using hle
            have heid : e.id = i := by simpa using hei
            refine List.any_eq_true.mpr ⟨e, ?_, hei⟩
            refine List.mem_filter.mpr ⟨he, ?_⟩
            simp only [Bool.not_eq_true', decide_eq_false_iff_not]
            omega
    · intro e he
      constructor
      · intro hin
        have := (List.mem_filter.mp hin).2
        simp only [Bool.not_eq_true', decide_eq_false_iff_not] at this
        exact Or.inr this
      · intro hor
        rcases hor with h0 | hgt
        · exact absurd h0 hst
        · refine List.mem_filter.mpr ⟨he, ?_⟩
          simp only [Bool.not_eq_true', decide_eq_false_iff_not]
          exact hgt

/-- Witness for C4 (amended): a concrete state with one valid cursor above
the boundary; the run preserves cursor validity and keeps exactly the
entries at or above the boundary. -/
theorem cleanup_no_dangling_witness :
    validCursors (cleanupRun (some 1) 1 0
      ⟨[⟨20, 1, 500000000⟩, ⟨10, 2, 500000000⟩],
        [⟨1, 6, 2, 50, 3, some 20, false, true, false, false, 0, 0⟩], [], []⟩) = true ∧
    ∀ e ∈ (⟨[⟨20, 1, 500000000⟩, ⟨10, 2, 500000000⟩],
        [⟨1, 6, 2, 50, 3, some 20, false, true, false, false, 0, 0⟩], [], []⟩
        : PState).shares,
      (e ∈ (cleanupRun (some 1) 1 0
          ⟨[⟨20, 1, 500000000⟩, ⟨10, 2, 500000000⟩],
            [⟨1, 6, 2, 50, 3, some 20, false, true, false, false, 0, 0⟩],
            [], []⟩).shares ↔
        (cleanupStale (some 1) 1 0
            ⟨[⟨20, 1, 500000000⟩, ⟨10, 2, 500000000⟩],
              [⟨1, 6, 2, 50, 3, some 20, false, true, false, false, 0, 0⟩],
              [], []⟩ = 0 ∨
          ¬ e.id < cleanupStale (some 1) 1 0
            ⟨[⟨20, 1, 500000000⟩, ⟨10, 2, 500000000⟩],
              [⟨1, 6, 2, 50, 3, some 20, false, true, false, false, 0, 0⟩],
              [], []⟩)) :=
  cleanup_no_dangling (some 1) 1 0
    ⟨[⟨20, 1, 500000000⟩, ⟨10, 2, 500000000⟩],
      [⟨1, 6, 2, 50, 3, some 20, false, true, false, false, 0, 0⟩], [], []⟩
    (by decide)

/-- The `Threshold` row fields driving the temperature/hashrate alerting
state machine: the two thresholds and the two sticky error flags. -/
structure ThresholdE where
  tempThresh : ℤ
  hashrateThresh : ℤ
  tempErr : Bool
  hashrateErr : Bool
deriving DecidableEq, Repr

/-- Which condition a notification concerns. -/
inductive NotifKind
  | temp
  | hashrate
deriving DecidableEq, Repr

/-- An outbound alert: a problem report or a resolution report. -/
inductive Notif
  | problem (k : NotifKind)
  | resolved (k : NotifKind)
deriving DecidableEq, Repr

/-- A telemetry sample handled by `agent_receive`: a per-device temperature
array or a per-device hashrate array (values as integers). -/
inductive Sample
  | temp (payload : List ℤ)
  | hashrate (payload : List ℤ)
deriving DecidableEq, Repr

/-- Modelled from the spec: `Threshold.report_condition` is defined in
`simplecoin/models.py`, which is not among the sources here; per spec 4.6 it
emits exactly one notification and sets the named error flag to the given
value (problem on `false → true`, resolved on `true → false`). -/
def reportCondition (t : ThresholdE) (k : NotifKind) (value : Bool) :
    ThresholdE × List Notif :=
  (match k with
    | .temp => { t with tempErr := value }
    | .hashrate => { t with hashrateErr := value },
   [if value then Notif.problem k else Notif.resolved k])

/-- One temperature/hashrate sample through `agent_receive` (tasks.py lines
671-714): with no `Threshold` row nothing is checked; a temperature sample
collects the cards with `value >= temp_thresh` and reports on a transition
of that condition against `temp_err`; a hashrate sample whose summed rate is
zero is skipped entirely (only logged), and otherwise a transition of
`hr <= hashrate_thresh` (with `hr = sum(payload) * 1000`) against
`hashrate_err` is reported. -/
def agentReceive : Option ThresholdE → Sample → Option ThresholdE × List Notif
  | none, _ => (none, [])
  | some t, .temp payload =>
      if payload.filter (fun v => decide (t.tempThresh ≤ v)) ≠ []
          ∧ t.tempErr = false then
        (some (reportCondition t .temp true).1, (reportCondition t .temp true).2)
      else if payload.filter (fun v => decide (t.tempThresh ≤ v)) = []
          ∧ t.tempErr = true then
        (some (reportCondition t .temp false).1, (reportCondition t .temp false).2)
      else (some t, [])
  | some t, .hashrate payload =>
      if payload.sum * 1000 = 0 then (some t, [])
      else if payload.sum * 1000 ≤ t.hashrateThresh ∧ t.hashrateErr = false then
        (some (reportCondition t .hashrate true).1,
          (reportCondition t .hashrate true).2)
      else if ¬ payload.sum * 1000 ≤ t.hashrateThresh
          ∧ t.hashrateErr = true then
        (some (reportCondition t .hashrate false).1,
          (reportCondition t .hashrate false).2)
      else (some t, [])

/-- A run of consecutive telemetry samples, collecting all notifications. -/
def runAgent : Option ThresholdE → List Sample → Option ThresholdE × List Notif
  | th, [] => (th, [])
  | th, sample :: rest =>
      ((runAgent (agentReceive th sample).1 rest).1,
        (agentReceive th sample).2
          ++ (runAgent (agentReceive th sample).1 rest).2)

/-- Number of problem notifications in an alert stream. -/
def countProblems (l : List Notif) : ℕ :=
  (l.filter (fun n => match n with | .problem _ => true | .resolved _ => false)).length

/-- C9 (counterexample): the claim's violation predicates do not match the
code.  A device at exactly `temp_thresh` (not over it) still triggers a
problem notification, because the code tests `value >= thresh.temp_thresh`;
a summed hashrate at exactly `hashrate_thresh` (not under it) also triggers
a problem notification, because the code tests `hr <= thresh.hashrate_thresh`;
and a zero-hashrate sample is skipped entirely, so two consecutive samples
violating the hashrate threshold (summed rate 0, under the threshold 5000)
emit no problem notification at all rather than exactly one. -/
theorem threshold_boundary_counterexample :
    (agentReceive (some ⟨80, 5000, false, false⟩) (.temp [80])).2
      = [Notif.problem .temp] ∧
    ¬ (80 : ℤ) > 80 ∧
    (agentReceive (some ⟨80, 5000, false, false⟩) (.hashrate [5])).2
      = [Notif.problem .hashrate] ∧
    ¬ (5 : ℤ) * 1000 < 5000 ∧
    (runAgent (some ⟨80, 5000, false, false⟩)
      [.hashrate [0], .hashrate [0]]).2 = [] ∧
    (0 : ℤ) * 1000 < 5000 := by
  decide

theorem agentReceive_temp_steady (t : ThresholdE) (p : List ℤ)
    (herr : t.tempErr = true) (hviol : ∃ v ∈ p, t.tempThresh ≤ v) :
    agentReceive (some t) (.temp p) = (some t, []) := by
  obtain ⟨v, hv, hle⟩ := hviol
  have hover : p.filter (fun v => decide (t.tempThresh ≤ v)) ≠ [] :=
    List.ne_nil_of_mem (List.mem_filter.mpr ⟨hv, by simpa using hle⟩)
  simp only [agentReceive]
  rw [if_neg (by rintro ⟨-, h⟩; rw [herr] at h; cases h)]
  rw [if_neg (by rintro ⟨h, -⟩; exact hover h)]

theorem runAgent_temp_steady (n : ℕ) (t : ThresholdE) (p : List ℤ)
    (herr : t.tempErr = true) (hviol : ∃ v ∈ p, t.tempThresh ≤ v) :
    (runAgent (some t) (List.replicate n (.temp p))).2 = [] := by
  induction n with
  | zero => rfl
  | succ m ih =>
      rw [List.replicate_succ]
      simp only [runAgent]
      rw [agentReceive_temp_steady t p herr hviol]
      simpa using ih

theorem agentReceive_hashrate_steady (t : ThresholdE) (p : List ℤ)
    (herr : t.hashrateErr = true) (hnz : p.sum * 1000 ≠ 0)
    (hlow : p.sum * 1000 ≤ t.hashrateThresh) :
    agentReceive (some t) (.hashrate p) = (some t, []) := by
  simp only [agentReceive]
  rw [if_neg hnz]
  rw [if_neg (by rintro ⟨-, h⟩; rw [herr] at h; cases h)]
  rw [if_neg (by rintro ⟨h, -⟩; exact h hlow)]

theorem runAgent_hashrate_steady (n : ℕ) (t : ThresholdE) (p : List ℤ)
    (herr : t.hashrateErr = true) (hnz : p.sum * 1000 ≠ 0)
    (hlow : p.sum * 1000 ≤ t.hashrateThresh) :
    (runAgent (some t) (List.replicate n (.hashrate p))).2 = [] := by
  induction n with
  | zero => rfl
  | succ m ih =>
      rw [List.replicate_succ]
      simp only [runAgent]
      rw [agentReceive_hashrate_steady t p herr hnz hlow]
      simpa using ih

/-- C9 (amended): for a configured `(user, worker)` threshold row, the
violation conditions the code evaluates are `value >= temp_thresh` (any
device at or above the threshold) and `hr <= hashrate_thresh` (summed rate
at or below the threshold) for a nonzero summed hashrate — a hashrate
sample summing to zero is skipped with no evaluation and no transition.
With those predicates, only transitions emit, for each condition: `false →
true` emits exactly one problem notification and sets the corresponding
error flag, `true → false` emits exactly one resolved notification and
clears it, no transition (violating with the flag set, or clean with the
flag clear) emits nothing and leaves the row unchanged, and N consecutive
violating (nonzero) samples from a clean flag produce exactly one problem
notification — for temperature and for hashrate alike. -/
theorem threshold_transitions_exact :
    (∀ (t : ThresholdE) (p : List ℤ), t.tempErr = false →
      (∃ v ∈ p, t.tempThresh ≤ v) →
      agentReceive (some t) (.temp p)
        = (some { t with tempErr := true }, [Notif.problem .temp])) ∧
    (∀ (t : ThresholdE) (p : List ℤ), t.tempErr = true →
      (∀ v ∈ p, v < t.tempThresh) →
      agentReceive (some t) (.temp p)
        = (some { t with tempErr := false }, [Notif.resolved .temp])) ∧
    (∀ (t : ThresholdE) (p : List ℤ), t.tempErr = false →
      (∀ v ∈ p, v < t.tempThresh) →
      agentReceive (some t) (.temp p) = (some t, [])) ∧
    (∀ (t : ThresholdE) (p : List ℤ), t.tempErr = true →
      (∃ v ∈ p, t.tempThresh ≤ v) →
      agentReceive (some t) (.temp p) = (some t, [])) ∧
    (∀ (t : ThresholdE) (p : List ℤ), p.sum * 1000 = 0 →
      agentReceive (some t) (.hashrate p) = (some t, [])) ∧
    (∀ (t : ThresholdE) (p : List ℤ), t.hashrateErr = false →
      p.sum * 1000 ≠ 0 → p.sum * 1000 ≤ t.hashrateThresh →
      agentReceive (some t) (.hashrate p)
        = (some { t with hashrateErr := true }, [Notif.problem .hashrate])) ∧
    (∀ (t : ThresholdE) (p : List ℤ), t.hashrateErr = true →
      p.sum * 1000 ≠ 0 → ¬ p.sum * 1000 ≤ t.hashrateThresh →
      agentReceive (some t) (.hashrate p)
        = (some { t with hashrateErr := false }, [Notif.resolved .hashrate])) ∧
    (∀ (t : ThresholdE) (p : List ℤ), t.hashrateErr = true →
      p.sum * 1000 ≠ 0 → p.sum * 1000 ≤ t.hashrateThresh →
      agentReceive (some t) (.hashrate p) = (some t, [])) ∧
    (∀ (t : ThresholdE) (p : List ℤ), t.hashrateErr = false →
      p.sum * 1000 ≠ 0 → ¬ p.sum * 1000 ≤ t.hashrateThresh →
      agentReceive (some t) (.hashrate p) = (some t, [])) ∧
    (∀ (t : ThresholdE) (p : List ℤ) (n : ℕ), t.tempErr = false →
      (∃ v ∈ p, t.tempThresh ≤ v) →
      countProblems
        (runAgent (some t) (List.replicate (n + 1) (.temp p))).2 = 1) ∧
    (∀ (t : ThresholdE) (p : List ℤ) (n : ℕ), t.hashrateErr = false →
      p.sum * 1000 ≠ 0 → p.sum * 1000 ≤ t.hashrateThresh →
      countProblems
        (runAgent (some t) (List.replicate (n + 1) (.hashrate p))).2 = 1) := by
  have hproblem : ∀ (t : ThresholdE) (p : List ℤ), t.tempErr = false →
      (∃ v ∈ p, t.tempThresh ≤ v) →
      agentReceive (some t) (.temp p)
        = (some { t with tempErr := true }, [Notif.problem .temp]) := by
    intro t p herr hviol
    obtain ⟨v, hv, hle⟩ := hviol
    have hover : p.filter (fun v => decide (t.tempThresh ≤ v)) ≠ [] :=
      List.ne_nil_of_mem (List.mem_filter.mpr ⟨hv, by simpa using hle⟩)
    simp only [agentReceive]
    rw [if_pos ⟨hover, herr⟩]
    rfl
  have hproblemHash : ∀ (t : ThresholdE) (p : List ℤ), t.hashrateErr = false →
      p.sum * 1000 ≠ 0 → p.sum * 1000 ≤ t.hashrateThresh →
      agentReceive (some t) (.hashrate p)
        = (some { t with hashrateErr := true }, [Notif.problem .hashrate]) := by
    intro t p herr hnz hlow
    simp only [agentReceive]
    rw [if_neg hnz]
    rw [if_pos ⟨hlow, herr⟩]
    rfl
  refine ⟨hproblem, ?_, ?_, ?_, ?_, hproblemHash, ?_, ?_, ?_, ?_, ?_⟩
  · intro t p herr hcalm
    have hover : p.filter (fun v => decide (t.tempThresh ≤ v)) = [] := by
      rw [List.filter_eq_nil_iff]
      intro v hv
      simpa using hcalm v hv
    simp only [agentReceive]
    rw [if_neg (by rintro ⟨h, -⟩; exact h hover)]
    rw [if_pos ⟨hover, herr⟩]
    rfl
  · intro t p herr hcalm
    have hover : p.filter (fun v => decide (t.tempThresh ≤ v)) = [] := by
      rw [List.filter_eq_nil_iff]
      intro v hv
      simpa using hcalm v hv
    simp only [agentReceive]
    rw [if_neg (by rintro ⟨h, -⟩; exact h hover)]
    rw [if_neg (by rintro ⟨-, h⟩; rw [herr] at h; cases h)]
  · intro t p herr hviol
    exact agentReceive_temp_steady t p herr hviol
  · intro t p hzero
    simp only [agentReceive]
    rw [if_pos hzero]
  · intro t p herr hnz hhigh
    simp only [agentReceive]
    rw [if_neg hnz]
    rw [if_neg (by rintro ⟨h, -⟩; exact hhigh h)]
    rw [if_pos ⟨hhigh, herr⟩]
    rfl
  · intro t p herr hnz hlow
    exact agentReceive_hashrate_steady t p herr hnz hlow
  · intro t p herr hnz hhigh
    simp only [agentReceive]
    rw [if_neg hnz]
    rw [if_neg (by rintro ⟨h, -⟩; exact hhigh h)]
    rw [if_neg (by rintro ⟨-, h⟩; rw [herr] at h; cases h)]
  · intro t p n herr hviol
    rw [List.replicate_succ]
    simp only [runAgent]
    rw [hproblem t p herr hviol]
    dsimp only
    rw [runAgent_temp_steady n { t with tempErr := true } p rfl hviol]
    rfl
  · intro t p n herr hnz hlow
    rw [List.replicate_succ]
    simp only [runAgent]
    rw [hproblemHash t p herr hnz hlow]
    dsimp only
    rw [runAgent_hashrate_steady n { t with hashrateErr := true } p rfl hnz hlow]
    rfl

/-- Witness for C9 (amended): concrete transitions, no-transition samples and
zero-rate skips at temperature threshold 80 and hashrate threshold 5000, and
three consecutive violating samples of each kind emitting exactly one
problem notification. -/
theorem threshold_transitions_exact_witness :
    agentReceive (some ⟨80, 5000, false, false⟩) (.temp [85])
      = (some ⟨80, 5000, true, false⟩, [Notif.problem .temp]) ∧
    agentReceive (some ⟨80, 5000, true, false⟩) (.temp [70])
      = (some ⟨80, 5000, false, false⟩, [Notif.resolved .temp]) ∧
    agentReceive (some ⟨80, 5000, false, false⟩) (.temp [75])
      = (some ⟨80, 5000, false, false⟩, []) ∧
    agentReceive (some ⟨80, 5000, true, false⟩) (.temp [90])
      = (some ⟨80, 5000, true, false⟩, []) ∧
    agentReceive (some ⟨80, 5000, false, false⟩) (.hashrate [0])
      = (some ⟨80, 5000, false, false⟩, []) ∧
    agentReceive (some ⟨80, 5000, false, false⟩) (.hashrate [2])
      = (some ⟨80, 5000, false, true⟩, [Notif.problem .hashrate]) ∧
    agentReceive (some ⟨80, 5000, false, true⟩) (.hashrate [9])
      = (some ⟨80, 5000, false, false⟩, [Notif.resolved .hashrate]) ∧
    agentReceive (some ⟨80, 5000, false, true⟩) (.hashrate [3])
      = (some ⟨80, 5000, false, true⟩, []) ∧
    agentReceive (some ⟨80, 5000, false, false⟩) (.hashrate [9])
      = (some ⟨80, 5000, false, false⟩, []) ∧
    countProblems
      (runAgent (some ⟨80, 5000, false, false⟩)
        (List.replicate 3 (.temp [90]))).2 = 1 ∧
    countProblems
      (runAgent (some ⟨80, 5000, false, false⟩)
        (List.replicate 3 (.hashrate [2]))).2 = 1 :=
  ⟨threshold_transitions_exact.1 ⟨80, 5000, false, false⟩ [85] rfl
      ⟨85, by decide, by decide⟩,
   threshold_transitions_exact.2.1 ⟨80, 5000, true, false⟩ [70] rfl
      (by decide),
   threshold_transitions_exact.2.2.1 ⟨80, 5000, false, false⟩ [75] rfl
      (by decide),
   threshold_transitions_exact.2.2.2.1 ⟨80, 5000, true, false⟩ [90] rfl
      ⟨90, by decide, by decide⟩,
   threshold_transitions_exact.2.2.2.2.1 ⟨80, 5000, false, false⟩ [0]
      (by decide),
   threshold_transitions_exact.2.2.2.2.2.1 ⟨80, 5000, false, false⟩ [2] rfl
      (by decide) (by decide),
   threshold_transitions_exact.2.2.2.2.2.2.1 ⟨80, 5000, false, true⟩ [9] rfl
      (by decide) (by decide),
   threshold_transitions_exact.2.2.2.2.2.2.2.1 ⟨80, 5000, false, true⟩ [3] rfl
      (by decide) (by decide),
   threshold_transitions_exact.2.2.2.2.2.2.2.2.1 ⟨80, 5000, false, false⟩ [9]
      rfl (by decide) (by decide),
   threshold_transitions_exact.2.2.2.2.2.2.2.2.2.1 ⟨80, 5000, false, false⟩
      [90] 2 rfl ⟨90, by decide, by decide⟩,
   threshold_transitions_exact.2.2.2.2.2.2.2.2.2.2 ⟨80, 5000, false, false⟩
      [2] 2 rfl (by decide) (by decide)⟩

end Simplevert
